import Mathlib

/-!
Verification of the PHI-redaction pipeline from the repository
"Medical-Images-De-Identification" (file
`aws_de_identification_of_medical_images_using_comprehend_medical_+_rekognition_+_lambda.py`,
Lambda variant, lines 175-257).

The shallow embedding below follows the Python source.  Python floats are
modelled as exact rationals, numpy images as a shape pair together with a
total pixel function on integer coordinates, and the two external drawing
calls `cv2.rectangle(..., cv2.FILLED)` / `cv2.rectangle(..., cv2.LINE_4)`
are modelled as a filled axis-aligned rectangle and a border band of
half-thickness `t / 2` (the source passes `cv2.LINE_4 = 4` in the
`thickness` position).  Fallible steps return `Option` / `Except`.
-/

namespace DeIdent

/-- Rekognition text-detection unit kind (`text['Type']` in the source). -/
inductive TextKind where
  | LINE : TextKind
  | WORD : TextKind
deriving DecidableEq, Repr

/-- Rekognition normalized bounding box (`text['Geometry']['BoundingBox']`):
fields `Left`, `Top`, `Width`, `Height`, fractions of the image size. -/
structure NormalizedBox where
  left : ℚ
  top : ℚ
  width : ℚ
  height : ℚ
deriving DecidableEq, Repr

/-- One detected text unit, as consumed by `detect_phi_boxes`. -/
structure DetectedText where
  type : TextKind
  detectedText : String
  geometry : NormalizedBox
deriving DecidableEq, Repr

/-- Comprehend Medical entity (`response['Entities'][i]`): only the
confidence score is consumed by the source. -/
structure PhiEntity where
  score : ℚ
deriving DecidableEq, Repr

/-- Pixel-space box, the tuple `(X, Y, X+W, Y+H)` built at source line 237. -/
structure PixBox where
  x1 : ℤ
  y1 : ℤ
  x2 : ℤ
  y2 : ℤ
deriving DecidableEq, Repr

/-- A BGR pixel value as used by the OpenCV calls in the source. -/
abbrev Color : Type := ℤ × ℤ × ℤ

/-- A decoded image: numpy `shape[0]` (rows) and `shape[1]` (columns) plus a
total pixel function on integer `(x, y)` coordinates (x = column, y = row);
OpenCV drawing is clipped to the in-bounds region. -/
structure Img where
  shape0 : ℕ
  shape1 : ℕ
  pix : ℤ → ℤ → Color

/-- Python `int()` applied to a float: truncation toward zero. -/
def truncInt (q : ℚ) : ℤ :=
  if q < 0 then -⌊-q⌋ else ⌊q⌋

/-- The pixel-box computation of `detect_phi_boxes` (source lines 232-237):
`X = int(Left * h)`, `Y = int(Top * w)`, `W = int(Width * h)`,
`H = int(Height * w)`, box `(X, Y, X+W, Y+H)`; the first argument scales
the horizontal coordinates, the second the vertical ones. -/
def toPixelBox (g : NormalizedBox) (iW iH : ℤ) : PixBox :=
  let X : ℤ := truncInt (g.left * (iW : ℚ))
  let Y : ℤ := truncInt (g.top * (iH : ℚ))
  let W : ℤ := truncInt (g.width * (iW : ℚ))
  let H : ℤ := truncInt (g.height * (iH : ℚ))
  ⟨X, Y, X + W, Y + H⟩

/-- The PHI decision of source line 230:
`len(response['Entities']) != 0 and response['Entities'][0]['Score'] > threshold`. -/
def isPhi (entities : List PhiEntity) (threshold : ℚ) : Bool :=
  match entities with
  | [] => false
  | e :: _ => decide (threshold < e.score)

/-- Loop body of `detect_phi_boxes` (source lines 227-238): a LINE whose
first returned entity scores above the threshold contributes the pair
`(DetectedText, [pixel box])`; every other text unit is skipped. -/
def detectStep (detect_phi : String → List PhiEntity) (threshold : ℚ)
    (h w : ℤ) (phi_boxes : List (String × List PixBox))
    (text : DetectedText) : List (String × List PixBox) :=
  if text.type = TextKind.LINE then
    if isPhi (detect_phi text.detectedText) threshold then
      phi_boxes ++ [(text.detectedText, [toPixelBox text.geometry h w])]
    else phi_boxes
  else phi_boxes

/-- `detect_phi_boxes(texts, image)` (source lines 221-240), with the
Comprehend Medical call `comprehend_medical.detect_phi` abstracted as the
function argument `detect_phi`.  The source sets `threshold = 0.3`,
`h = image.shape[1]`, `w = image.shape[0]`. -/
def detect_phi_boxes (detect_phi : String → List PhiEntity)
    (texts : List DetectedText) (image : Img) :
    List (String × List PixBox) :=
  let threshold : ℚ := 3 / 10
  let h : ℤ := (image.shape1 : ℤ)
  let w : ℤ := (image.shape0 : ℤ)
  texts.foldl (detectStep detect_phi threshold h w) []

/-- Modelled from the spec: the round-to-nearest pixel-box formula of
section 4.1 (`x1 = round(left * imageWidth)` and so on), stated for
comparison with the source's `toPixelBox`. -/
def toPixelBoxSpec (g : NormalizedBox) (iW iH : ℤ) : PixBox :=
  let X : ℤ := round (g.left * (iW : ℚ))
  let Y : ℤ := round (g.top * (iH : ℚ))
  ⟨X, Y, X + round (g.width * (iW : ℚ)), Y + round (g.height * (iH : ℚ))⟩

lemma truncInt_of_nonneg {q : ℚ} (h : 0 ≤ q) : truncInt q = ⌊q⌋ := by
  unfold truncInt
  rw [if_neg (not_lt.mpr h)]

lemma truncInt_nonneg {q : ℚ} (h : 0 ≤ q) : 0 ≤ truncInt q := by
  rw [truncInt_of_nonneg h]
  exact Int.floor_nonneg.mpr h

/-- OpenCV constant `cv2.FILLED`. -/
def FILLED : ℤ := -1

/-- OpenCV constant `cv2.LINE_4`; the source passes it in the `thickness`
position of the outline call (source line 250). -/
def LINE_4 : ℤ := 4

/-- Whether integer coordinates `(x, y)` address a pixel of an image with
`shape0` rows and `shape1` columns; OpenCV drawing writes only there. -/
def inImgB (s0 s1 : ℕ) (x y : ℤ) : Bool :=
  decide (0 ≤ x) && decide (x < (s1 : ℤ)) && decide (0 ≤ y) && decide (y < (s0 : ℤ))

/-- The raster footprint of `cv2.rectangle` between corners `(X1, Y1)` and
`(X2, Y2)`: a negative thickness (`cv2.FILLED`) covers the whole closed
box; a nonnegative thickness `t` covers the border band of half-thickness
`t / 2` around the box boundary. -/
def rectMemB (X1 Y1 X2 Y2 t x y : ℤ) : Bool :=
  if t < 0 then
    decide (min X1 X2 ≤ x) && decide (x ≤ max X1 X2) &&
      decide (min Y1 Y2 ≤ y) && decide (y ≤ max Y1 Y2)
  else
    let r := t / 2
    (decide (min X1 X2 - r ≤ x) && decide (x ≤ max X1 X2 + r) &&
      decide (min Y1 Y2 - r ≤ y) && decide (y ≤ max Y1 Y2 + r)) &&
    !(decide (min X1 X2 + r < x) && decide (x < max X1 X2 - r) &&
      decide (min Y1 Y2 + r < y) && decide (y < max Y1 Y2 - r))

/-- `cv2.rectangle(img, (X1, Y1), (X2, Y2), c, t)`: writes the color `c`
on the footprint pixels that lie inside the image, leaving the rest. -/
def cvRectangle (im : Img) (X1 Y1 X2 Y2 : ℤ) (c : Color) (t : ℤ) : Img :=
  ⟨im.shape0, im.shape1, fun x y =>
    if inImgB im.shape0 im.shape1 x y && rectMemB X1 Y1 X2 Y2 t x y then c
    else im.pix x y⟩

/-- Loop body of `redact_phi_from_images` (source lines 244-250): fill the
box with black `(0, 0, 0)` (`cv2.FILLED`), then draw a white
`(255, 255, 255)` border with `cv2.LINE_4` in the thickness position. -/
def applyRegion (im : Img) (b : PixBox) : Img :=
  cvRectangle (cvRectangle im b.x1 b.y1 b.x2 b.y2 (0, 0, 0) FILLED)
    b.x1 b.y1 b.x2 b.y2 (255, 255, 255) LINE_4

/-- One iteration of the redaction loop on the running image:
`X1, Y1, X2, Y2 = box[0]` raises `IndexError` when the box list is empty,
modelled as `none`. -/
def redactStep (oim : Option Img) (tb : String × List PixBox) : Option Img :=
  match oim, tb.2 with
  | some im, b :: _ => some (applyRegion im b)
  | _, _ => none

/-- `redact_phi_from_images(phi_boxes, img)` (source lines 243-252).  The
two `cv2.rectangle` calls mutate the one underlying array, so the loop is
sequential composition of `applyRegion`; the function returns `img_boxed`,
which is never assigned when `phi_boxes` is empty, raising `NameError` —
modelled as `none`. -/
def redact_phi_from_images (phi_boxes : List (String × List PixBox))
    (img : Img) : Option Img :=
  match phi_boxes with
  | [] => none
  | _ :: _ => phi_boxes.foldl redactStep (some img)

/-- Python `str.replace` on character lists (leftmost, non-overlapping
occurrences of a nonempty pattern `pat` replaced by `rep`). -/
def strReplace (pat rep : List Char) : List Char → List Char
  | [] => []
  | c :: cs =>
    if pat <+: (c :: cs) ∧ pat ≠ [] then
      rep ++ strReplace pat rep (List.drop (pat.length - 1) cs)
    else
      c :: strReplace pat rep cs
termination_by s => s.length
decreasing_by
  · simp only [List.length_drop, List.length_cons]
    omega
  · simp

/-- The pattern of the key rewrite at source line 199. -/
def imagesSeg : List Char := "Images/".toList

/-- The replacement of the key rewrite at source line 199. -/
def redactedSeg : List Char := "RedactedImages/".toList

/-- Failure kinds of a pipeline invocation: an uncaught Python exception
from a collaborator call (fetch failure, Rekognition failure or timeout)
or the `NameError` raised inside `redact_phi_from_images`. -/
inductive PErr where
  | fetchError : PErr
  | ocrTimeout : PErr
  | ocrUnavailable : PErr
  | nameUndefined : PErr
deriving DecidableEq, Repr

/-- The collaborators of one Lambda invocation: the S3 fetch + decode of
the triggered object, the Rekognition `detect_text` call, and the
Comprehend Medical `detect_phi` call. -/
structure PipelineEnv where
  fetchImage : Except PErr Img
  detectText : Except PErr (List DetectedText)
  detect_phi : String → List PhiEntity

/-- The structured result returned at source lines 202-205. -/
structure LambdaResult where
  statusCode : ℕ
  body : String
deriving DecidableEq, Repr

/-- `lambda_handler` (source lines 175-205): fetch and decode the image,
detect text, compute PHI boxes, redact, rewrite the key by
`key.replace('Images/', 'RedactedImages/')` and store.  An uncaught
exception at any step aborts the invocation; the returned list records the
`put_object` writes `(bucket, key, image)` the invocation performed. -/
def lambda_handler (env : PipelineEnv) (bucket : String) (key : List Char) :
    Except PErr LambdaResult × List (String × List Char × Img) :=
  match env.fetchImage with
  | .error e => (.error e, [])
  | .ok img =>
    match env.detectText with
    | .error e => (.error e, [])
    | .ok texts =>
      let phi_boxes := detect_phi_boxes env.detect_phi texts img
      match redact_phi_from_images phi_boxes img with
      | none => (.error .nameUndefined, [])
      | some img_redacted =>
        let key2 := strReplace imagesSeg redactedSeg key
        (.ok ⟨200, "Hello from Lambda!"⟩, [(bucket, key2, img_redacted)])

lemma truncInt_coe (n : ℤ) : truncInt ((n : ℚ)) = n := by
  unfold truncInt
  split
  · rw [← Int.cast_neg, Int.floor_intCast, neg_neg]
  · rw [Int.floor_intCast]

lemma truncInt_eq_of {q : ℚ} {n : ℤ} (hn : 0 ≤ n) (h1 : (n : ℚ) ≤ q)
    (h2 : q < (n : ℚ) + 1) : truncInt q = n := by
  have h3 : (0 : ℚ) ≤ q := le_trans (by exact_mod_cast hn) h1
  rw [truncInt_of_nonneg h3]
  exact Int.floor_eq_iff.mpr ⟨h1, h2⟩

lemma truncInt_pair_le {a b : ℚ} {n : ℤ} (ha : 0 ≤ a) (hb : 0 ≤ b)
    (hab : a + b ≤ (n : ℚ)) : truncInt a + truncInt b ≤ n := by
  rw [truncInt_of_nonneg ha, truncInt_of_nonneg hb]
  have h1 : (⌊a⌋ : ℚ) ≤ a := Int.floor_le a
  have h2 : (⌊b⌋ : ℚ) ≤ b := Int.floor_le b
  have h3 : ((⌊a⌋ + ⌊b⌋ : ℤ) : ℚ) ≤ (n : ℚ) := by push_cast; linarith
  exact_mod_cast h3

/-- C2: `isPhi` returns true iff the entity list is non-empty and the score
of its first element is strictly greater than the threshold; the empty list
gives false for every threshold, and a first score exactly equal to the
threshold gives false. -/
theorem isPhi_first_entity_strict :
    (∀ (es : List PhiEntity) (t : ℚ),
      isPhi es t = true ↔ ∃ e tl, es = e :: tl ∧ t < e.score) ∧
    (∀ t : ℚ, isPhi [] t = false) ∧
    (∀ (e : PhiEntity) (tl : List PhiEntity), isPhi (e :: tl) e.score = false) := by
  refine ⟨?_, fun _ => rfl, fun e tl => by simp [isPhi]⟩
  intro es t
  cases es with
  | nil => simp [isPhi]
  | cons e tl =>
    simp only [isPhi, decide_eq_true_eq]
    constructor
    · intro h
      exact ⟨e, tl, rfl, h⟩
    · rintro ⟨e', tl', heq, h⟩
      cases heq
      exact h

/-- C4 counterexample: all four normalized fields lie in `[0, 1]` and the
image dimensions are positive, yet the produced `x2` exceeds the image
width (the code neither clamps nor restricts `left + width`). -/
theorem toPixelBox_escapes_bounds :
    ((0 : ℚ) ≤ 9 / 10 ∧ (9 : ℚ) / 10 ≤ 1 ∧ (0 : ℚ) ≤ 0 ∧ (0 : ℚ) ≤ 1) ∧
      (0 : ℤ) < 10 ∧
      ¬ (toPixelBox ⟨9 / 10, 0, 9 / 10, 0⟩ 10 10).x2 ≤ 10 := by
  refine ⟨⟨by norm_num, by norm_num, le_refl _, by norm_num⟩, by norm_num, ?_⟩
  have h9 : truncInt ((9 : ℚ) / 10 * ((10 : ℤ) : ℚ)) = 9 := by
    rw [show (9 : ℚ) / 10 * ((10 : ℤ) : ℚ) = ((9 : ℤ) : ℚ) by push_cast; norm_num]
    exact truncInt_coe 9
  simp only [toPixelBox, h9]
  decide

/-- C4 amended: under the additional hypotheses `left + width ≤ 1` and
`top + height ≤ 1` (which the original claim lacks — the code performs no
clamping), the pixel box satisfies `0 ≤ x1 ≤ x2 ≤ imageWidth` and
`0 ≤ y1 ≤ y2 ≤ imageHeight`. -/
theorem toPixelBox_in_bounds (g : NormalizedBox) (iW iH : ℤ)
    (hl : 0 ≤ g.left) (ht : 0 ≤ g.top) (hw : 0 ≤ g.width) (hh : 0 ≤ g.height)
    (hlw : g.left + g.width ≤ 1) (hth : g.top + g.height ≤ 1)
    (hW : 0 < iW) (hH : 0 < iH) :
    0 ≤ (toPixelBox g iW iH).x1 ∧
      (toPixelBox g iW iH).x1 ≤ (toPixelBox g iW iH).x2 ∧
      (toPixelBox g iW iH).x2 ≤ iW ∧
      0 ≤ (toPixelBox g iW iH).y1 ∧
      (toPixelBox g iW iH).y1 ≤ (toPixelBox g iW iH).y2 ∧
      (toPixelBox g iW iH).y2 ≤ iH := by
  have hWQ : (0 : ℚ) ≤ (iW : ℚ) := by exact_mod_cast hW.le
  have hHQ : (0 : ℚ) ≤ (iH : ℚ) := by exact_mod_cast hH.le
  have hx1 : 0 ≤ g.left * (iW : ℚ) := mul_nonneg hl hWQ
  have hy1 : 0 ≤ g.top * (iH : ℚ) := mul_nonneg ht hHQ
  have hx2 : 0 ≤ g.width * (iW : ℚ) := mul_nonneg hw hWQ
  have hy2 : 0 ≤ g.height * (iH : ℚ) := mul_nonneg hh hHQ
  have hxs : g.left * (iW : ℚ) + g.width * (iW : ℚ) ≤ (iW : ℚ) := by
    have := mul_le_mul_of_nonneg_right hlw hWQ
    linarith [this]
  have hys : g.top * (iH : ℚ) + g.height * (iH : ℚ) ≤ (iH : ℚ) := by
    have := mul_le_mul_of_nonneg_right hth hHQ
    linarith [this]
  simp only [toPixelBox]
  exact ⟨truncInt_nonneg hx1,
    le_add_of_nonneg_right (truncInt_nonneg hx2),
    truncInt_pair_le hx1 hx2 hxs,
    truncInt_nonneg hy1,
    le_add_of_nonneg_right (truncInt_nonneg hy2),
    truncInt_pair_le hy1 hy2 hys⟩

/-- C4 amended witness: the bounds hold for a concrete in-range box on a
1000 x 2000 image. -/
theorem toPixelBox_in_bounds_witness :
    ((0 : ℚ) ≤ 1 / 10 ∧ (1 : ℚ) / 10 + 3 / 10 ≤ 1 ∧ (0 : ℤ) < 1000) ∧
      (0 ≤ (toPixelBox ⟨1 / 10, 1 / 20, 3 / 10, 1 / 25⟩ 1000 2000).x1 ∧
        (toPixelBox ⟨1 / 10, 1 / 20, 3 / 10, 1 / 25⟩ 1000 2000).x1 ≤
          (toPixelBox ⟨1 / 10, 1 / 20, 3 / 10, 1 / 25⟩ 1000 2000).x2 ∧
        (toPixelBox ⟨1 / 10, 1 / 20, 3 / 10, 1 / 25⟩ 1000 2000).x2 ≤ 1000 ∧
        0 ≤ (toPixelBox ⟨1 / 10, 1 / 20, 3 / 10, 1 / 25⟩ 1000 2000).y1 ∧
        (toPixelBox ⟨1 / 10, 1 / 20, 3 / 10, 1 / 25⟩ 1000 2000).y1 ≤
          (toPixelBox ⟨1 / 10, 1 / 20, 3 / 10, 1 / 25⟩ 1000 2000).y2 ∧
        (toPixelBox ⟨1 / 10, 1 / 20, 3 / 10, 1 / 25⟩ 1000 2000).y2 ≤ 2000) :=
  ⟨⟨by norm_num, by norm_num, by norm_num⟩,
    toPixelBox_in_bounds ⟨1 / 10, 1 / 20, 3 / 10, 1 / 25⟩ 1000 2000
      (by norm_num) (by norm_num) (by norm_num) (by norm_num)
      (by norm_num) (by norm_num) (by norm_num) (by norm_num)⟩

/-- C5 counterexample: at `left = 0.19` on a width-10 image the code's
`int()` truncation gives `x1 = 1` while round-to-nearest gives 2, so the
produced box differs from the spec's round-based formula. -/
theorem toPixelBox_differs_from_round :
    toPixelBox ⟨19 / 100, 0, 0, 0⟩ 10 10 ≠
      toPixelBoxSpec ⟨19 / 100, 0, 0, 0⟩ 10 10 := by
  have hq : (19 : ℚ) / 100 * ((10 : ℤ) : ℚ) = 19 / 10 := by push_cast; norm_num
  have hz : (0 : ℚ) * ((10 : ℤ) : ℚ) = ((0 : ℤ) : ℚ) := by push_cast; norm_num
  have ht : truncInt ((19 : ℚ) / 10) = 1 :=
    truncInt_eq_of (by norm_num) (by norm_num) (by norm_num)
  have hr : round ((19 : ℚ) / 10) = 2 := by
    rw [round_eq, Int.floor_eq_iff]
    norm_num
  simp only [toPixelBox, toPixelBoxSpec, hq, hz, ht, hr, truncInt_coe,
    round_intCast]
  decide

/-- C5 amended: for nonnegative normalized fields and nonnegative image
dimensions the pixel box is computed with truncation (floor on these
nonnegative products), not rounding to nearest:
`x1 = floor(left * imageWidth)`, `y1 = floor(top * imageHeight)`,
`x2 = x1 + floor(width * imageWidth)`, `y2 = y1 + floor(height * imageHeight)`. -/
theorem toPixelBox_floor_formula (g : NormalizedBox) (iW iH : ℤ)
    (hl : 0 ≤ g.left) (ht : 0 ≤ g.top) (hw : 0 ≤ g.width) (hh : 0 ≤ g.height)
    (hW : 0 ≤ iW) (hH : 0 ≤ iH) :
    toPixelBox g iW iH =
      ⟨⌊g.left * (iW : ℚ)⌋, ⌊g.top * (iH : ℚ)⌋,
        ⌊g.left * (iW : ℚ)⌋ + ⌊g.width * (iW : ℚ)⌋,
        ⌊g.top * (iH : ℚ)⌋ + ⌊g.height * (iH : ℚ)⌋⟩ := by
  have hWQ : (0 : ℚ) ≤ (iW : ℚ) := by exact_mod_cast hW
  have hHQ : (0 : ℚ) ≤ (iH : ℚ) := by exact_mod_cast hH
  simp only [toPixelBox,
    truncInt_of_nonneg (mul_nonneg hl hWQ),
    truncInt_of_nonneg (mul_nonneg ht hHQ),
    truncInt_of_nonneg (mul_nonneg hw hWQ),
    truncInt_of_nonneg (mul_nonneg hh hHQ)]

/-- C5 amended witness: the floor formula evaluated at `left = 0.19` on a
10 x 10 image. -/
theorem toPixelBox_floor_formula_witness :
    ((0 : ℚ) ≤ 19 / 100 ∧ (0 : ℤ) ≤ 10) ∧
      toPixelBox ⟨19 / 100, 0, 0, 0⟩ 10 10 =
        ⟨⌊(19 : ℚ) / 100 * ((10 : ℤ) : ℚ)⌋, ⌊(0 : ℚ) * ((10 : ℤ) : ℚ)⌋,
          ⌊(19 : ℚ) / 100 * ((10 : ℤ) : ℚ)⌋ + ⌊(0 : ℚ) * ((10 : ℤ) : ℚ)⌋,
          ⌊(0 : ℚ) * ((10 : ℤ) : ℚ)⌋ + ⌊(0 : ℚ) * ((10 : ℤ) : ℚ)⌋⟩ :=
  ⟨⟨by norm_num, by norm_num⟩,
    toPixelBox_floor_formula ⟨19 / 100, 0, 0, 0⟩ 10 10
      (by norm_num) (le_refl _) (le_refl _) (le_refl _)
      (by norm_num) (by norm_num)⟩

/-- C7 counterexample: with both image dimensions equal to 0 (hence ≤ 0)
the code raises no `InvalidImageDimensions` error — it returns a pixel box
(the all-zero box) like on any other input. -/
theorem toPixelBox_returns_box_on_zero_dims :
    toPixelBox ⟨1 / 2, 1 / 2, 1 / 2, 1 / 2⟩ 0 0 = ⟨0, 0, 0, 0⟩ := by
  simp [toPixelBox, truncInt]

/-- C7 amended: the pixel-box computation performs no dimension
validation: for every geometry it is total, and with both dimensions 0 it
returns the all-zero pixel box instead of failing. -/
theorem toPixelBox_no_dimension_check (g : NormalizedBox) :
    toPixelBox g 0 0 = ⟨0, 0, 0, 0⟩ := by
  simp [toPixelBox, truncInt]

lemma applyRegion_shape0 (im : Img) (b : PixBox) :
    (applyRegion im b).shape0 = im.shape0 := rfl

lemma applyRegion_shape1 (im : Img) (b : PixBox) :
    (applyRegion im b).shape1 = im.shape1 := rfl

lemma applyRegion_pix_cases (im : Img) (b : PixBox) (x y : ℤ) :
    (applyRegion im b).pix x y = (255, 255, 255) ∨
      (applyRegion im b).pix x y = (0, 0, 0) ∨
      (applyRegion im b).pix x y = im.pix x y := by
  simp only [applyRegion, cvRectangle]
  by_cases h1 :
      (inImgB im.shape0 im.shape1 x y &&
        rectMemB b.x1 b.y1 b.x2 b.y2 LINE_4 x y) = true
  · simp [h1]
  · by_cases h2 :
        (inImgB im.shape0 im.shape1 x y &&
          rectMemB b.x1 b.y1 b.x2 b.y2 FILLED x y) = true
    · simp [h1, h2]
    · simp [h1, h2]

lemma applyRegion_interior (im : Img) (b : PixBox) (x y : ℤ)
    (hin : inImgB im.shape0 im.shape1 x y = true)
    (hx1 : b.x1 < x) (hx2 : x < b.x2) (hy1 : b.y1 < y) (hy2 : y < b.y2) :
    (applyRegion im b).pix x y = (255, 255, 255) ∨
      (applyRegion im b).pix x y = (0, 0, 0) := by
  have hxx : b.x1 ≤ b.x2 := le_of_lt (lt_trans hx1 hx2)
  have hyy : b.y1 ≤ b.y2 := le_of_lt (lt_trans hy1 hy2)
  have hbox : rectMemB b.x1 b.y1 b.x2 b.y2 FILLED x y = true := by
    simp only [rectMemB, FILLED]
    rw [if_pos (by norm_num : (-1 : ℤ) < 0)]
    simp only [min_eq_left hxx, max_eq_right hxx, min_eq_left hyy,
      max_eq_right hyy, Bool.and_eq_true, decide_eq_true_eq]
    exact ⟨⟨⟨le_of_lt hx1, le_of_lt hx2⟩, le_of_lt hy1⟩, le_of_lt hy2⟩
  simp only [applyRegion, cvRectangle]
  by_cases h1 :
      (inImgB im.shape0 im.shape1 x y &&
        rectMemB b.x1 b.y1 b.x2 b.y2 LINE_4 x y) = true
  · simp [h1]
  · have h2 : (inImgB im.shape0 im.shape1 x y &&
        rectMemB b.x1 b.y1 b.x2 b.y2 FILLED x y) = true := by
      rw [hin, hbox]
      rfl
    simp [h1, h2]

lemma redactStep_none (tb : String × List PixBox) :
    redactStep none tb = none := by
  unfold redactStep
  cases tb.2 <;> rfl

lemma foldl_redactStep_none (l : List (String × List PixBox)) :
    l.foldl redactStep none = none := by
  induction l with
  | nil => rfl
  | cons hd tl ih => simpa [redactStep_none] using ih

lemma foldl_redactStep_shape (l : List (String × List PixBox)) :
    ∀ (im out : Img), l.foldl redactStep (some im) = some out →
      out.shape0 = im.shape0 ∧ out.shape1 = im.shape1 := by
  induction l with
  | nil =>
    intro im out h
    cases h
    exact ⟨rfl, rfl⟩
  | cons hd tl ih =>
    intro im out h
    simp only [List.foldl_cons] at h
    cases htb : hd.2 with
    | nil =>
      rw [show redactStep (some im) hd = none by
            unfold redactStep; rw [htb]] at h
      rw [foldl_redactStep_none] at h
      cases h
    | cons b bs =>
      rw [show redactStep (some im) hd = some (applyRegion im b) by
            unfold redactStep; rw [htb]] at h
      exact ih (applyRegion im b) out h

lemma foldl_redactStep_preserve (l : List (String × List PixBox)) :
    ∀ (im out : Img) (x y : ℤ), l.foldl redactStep (some im) = some out →
      (im.pix x y = (255, 255, 255) ∨ im.pix x y = (0, 0, 0)) →
      out.pix x y = (255, 255, 255) ∨ out.pix x y = (0, 0, 0) := by
  induction l with
  | nil =>
    intro im out x y h hp
    cases h
    exact hp
  | cons hd tl ih =>
    intro im out x y h hp
    simp only [List.foldl_cons] at h
    cases htb : hd.2 with
    | nil =>
      rw [show redactStep (some im) hd = none by
            unfold redactStep; rw [htb]] at h
      rw [foldl_redactStep_none] at h
      cases h
    | cons b bs =>
      rw [show redactStep (some im) hd = some (applyRegion im b) by
            unfold redactStep; rw [htb]] at h
      refine ih (applyRegion im b) out x y h ?_
      rcases applyRegion_pix_cases im b x y with h1 | h1 | h1
      · exact Or.inl h1
      · exact Or.inr h1
      · rw [h1]; exact hp

lemma foldl_redactStep_interior (l : List (String × List PixBox)) :
    ∀ (im out : Img), l.foldl redactStep (some im) = some out →
      ∀ tb ∈ l, ∀ (b : PixBox) (bs : List PixBox), tb.2 = b :: bs →
      ∀ x y : ℤ, b.x1 < x → x < b.x2 → b.y1 < y → y < b.y2 →
      inImgB im.shape0 im.shape1 x y = true →
      out.pix x y = (255, 255, 255) ∨ out.pix x y = (0, 0, 0) := by
  induction l with
  | nil =>
    intro im out _ tb htb
    cases htb
  | cons hd tl ih =>
    intro im out h tb htb b bs hb x y hx1 hx2 hy1 hy2 hin
    simp only [List.foldl_cons] at h
    rcases List.mem_cons.mp htb with rfl | hmem
    · rw [show redactStep (some im) tb = some (applyRegion im b) by
            unfold redactStep; rw [hb]] at h
      exact foldl_redactStep_preserve tl (applyRegion im b) out x y h
        (applyRegion_interior im b x y hin hx1 hx2 hy1 hy2)
    · cases htl2 : hd.2 with
      | nil =>
        rw [show redactStep (some im) hd = none by
              unfold redactStep; rw [htl2]] at h
        rw [foldl_redactStep_none] at h
        cases h
      | cons b0 bs0 =>
        rw [show redactStep (some im) hd = some (applyRegion im b0) by
              unfold redactStep; rw [htl2]] at h
        exact ih (applyRegion im b0) out h tb hmem b bs hb x y hx1 hx2 hy1 hy2 hin

/-- C1 counterexample: on an already all-black image a pixel strictly
inside the region's box still holds its original value after redaction
(the fill color coincides with it), so "no interior pixel retains its
original value" fails as stated. -/
theorem redact_retains_black_pixel :
    ((0 : ℤ) < 5 ∧ (5 : ℤ) < 9) ∧
      (redact_phi_from_images [("t", [⟨0, 0, 9, 9⟩])]
            ⟨10, 10, fun _ _ => (0, 0, 0)⟩).map (fun im => im.pix 5 5) =
        some ((0, 0, 0) : Color) := by
  exact ⟨by decide, by decide⟩

/-- C1 amended: after `redact_phi_from_images` succeeds, every image pixel
strictly inside the consumed box of any region holds the fill color
`(0,0,0)` or the outline color `(255,255,255)` — the thickness-4 white
outline overlaps the interior, and a pixel whose original value already
equals one of these two constants keeps that value; in either case the
final value is one of the two redaction constants, so no PHI pixel
content survives inside a region's box. -/
theorem redact_covers_interior
    (phi : List (String × List PixBox)) (img out : Img)
    (h : redact_phi_from_images phi img = some out)
    (tb : String × List PixBox) (htb : tb ∈ phi)
    (b : PixBox) (bs : List PixBox) (hb : tb.2 = b :: bs)
    (x y : ℤ) (hx1 : b.x1 < x) (hx2 : x < b.x2)
    (hy1 : b.y1 < y) (hy2 : y < b.y2)
    (hin : inImgB img.shape0 img.shape1 x y = true) :
    out.pix x y = (255, 255, 255) ∨ out.pix x y = (0, 0, 0) := by
  have hf : phi.foldl redactStep (some img) = some out := by
    cases phi with
    | nil => cases htb
    | cons hd tl => simpa [redact_phi_from_images] using h
  exact foldl_redactStep_interior phi img out hf tb htb b bs hb
    x y hx1 hx2 hy1 hy2 hin

/-- A concrete 10 x 10 image with uniform gray pixels, used as a witness
input. -/
def imgGray : Img := ⟨10, 10, fun _ _ => (7, 7, 7)⟩

/-- The concrete region list used as a witness input. -/
def phiGray : List (String × List PixBox) := [("Patient", [⟨0, 0, 9, 9⟩])]

/-- The redaction of `imgGray` by the box of `phiGray`. -/
def outGray : Img := applyRegion imgGray ⟨0, 0, 9, 9⟩

/-- C1 amended witness: the interior pixel `(5, 5)` of the concrete
redacted image holds one of the two redaction constants. -/
theorem redact_covers_interior_witness :
    outGray.pix 5 5 = (255, 255, 255) ∨ outGray.pix 5 5 = (0, 0, 0) :=
  redact_covers_interior phiGray imgGray outGray rfl
    ("Patient", [⟨0, 0, 9, 9⟩]) (List.Mem.head _) ⟨0, 0, 9, 9⟩ [] rfl
    5 5 (by decide) (by decide) (by decide) (by decide) (by decide)

lemma applyRegion_idem (im : Img) (b : PixBox) :
    applyRegion (applyRegion im b) b = applyRegion im b := by
  cases im with
  | mk s0 s1 f =>
    simp only [applyRegion, cvRectangle]
    congr 1
    funext x y
    by_cases h1 : (inImgB s0 s1 x y &&
        rectMemB b.x1 b.y1 b.x2 b.y2 LINE_4 x y) = true
    · simp [h1]
    · by_cases h2 : (inImgB s0 s1 x y &&
          rectMemB b.x1 b.y1 b.x2 b.y2 FILLED x y) = true
      · simp [h1, h2]
      · simp [h1, h2]

/-- C8: for any image and any single redaction region, running the
redaction a second time on the already-redacted image produces exactly the
same pixel values: the two rectangle draws write fixed constants at fixed
positions, so the operation is idempotent. -/
theorem redact_idempotent (img : Img) (txt : String)
    (b : PixBox) (bs : List PixBox) :
    (redact_phi_from_images [(txt, b :: bs)] img).bind
        (redact_phi_from_images [(txt, b :: bs)]) =
      redact_phi_from_images [(txt, b :: bs)] img := by
  simp [redact_phi_from_images, redactStep, applyRegion_idem]

/-- C10: on an empty region list (a PHI-free image) the redaction step
does not return the image unchanged — it fails (`return img_boxed` with
`img_boxed` never assigned raises `NameError`), and consequently the
whole invocation returns a failure and stores nothing. -/
theorem redact_empty_fails :
    (∀ img : Img, redact_phi_from_images [] img = none) ∧
    (∀ (env : PipelineEnv) (bucket : String) (key : List Char)
        (img : Img) (texts : List DetectedText),
      env.fetchImage = .ok img → env.detectText = .ok texts →
      detect_phi_boxes env.detect_phi texts img = [] →
      lambda_handler env bucket key = (.error .nameUndefined, [])) := by
  constructor
  · intro img
    rfl
  · intro env bucket key img texts hf hd hboxes
    simp [lambda_handler, hf, hd, hboxes, redact_phi_from_images]

/-- A pipeline environment whose OCR step succeeds with no detected text,
used as a witness input. -/
def envNoText : PipelineEnv := ⟨.ok imgGray, .ok [], fun _ => []⟩

/-- C10 witness: with a successfully fetched image and zero detected text
lines the invocation fails with the modelled `NameError` and performs no
write. -/
theorem redact_empty_fails_witness :
    lambda_handler envNoText "bucket" "Images/x.jpg".toList =
      (.error .nameUndefined, []) :=
  redact_empty_fails.2 envNoText "bucket" "Images/x.jpg".toList
    imgGray [] rfl rfl rfl

lemma detect_phi_boxes_mem_aux (dp : String → List PhiEntity) (thr : ℚ)
    (h w : ℤ) :
    ∀ (texts : List DetectedText) (acc : List (String × List PixBox))
      (r : String × List PixBox),
    r ∈ texts.foldl (detectStep dp thr h w) acc →
    r ∈ acc ∨ ∃ t, t ∈ texts ∧ t.type = TextKind.LINE ∧
      isPhi (dp t.detectedText) thr = true ∧
      r = (t.detectedText, [toPixelBox t.geometry h w]) := by
  intro texts
  induction texts with
  | nil =>
    intro acc r hr
    exact Or.inl hr
  | cons t ts ih =>
    intro acc r hr
    simp only [List.foldl_cons] at hr
    rcases ih _ r hr with hacc | ⟨t', ht', hline, hphi, hr'⟩
    · unfold detectStep at hacc
      by_cases h1 : t.type = TextKind.LINE
      · rw [if_pos h1] at hacc
        by_cases h2 : isPhi (dp t.detectedText) thr = true
        · rw [if_pos h2] at hacc
          rcases List.mem_append.mp hacc with h3 | h3
          · exact Or.inl h3
          · right
            exact ⟨t, List.mem_cons_self t ts, h1, h2, by simpa using h3⟩
        · rw [if_neg h2] at hacc
          exact Or.inl hacc
      · rw [if_neg h1] at hacc
        exact Or.inl hacc
    · right
      exact ⟨t', List.mem_cons_of_mem t ht', hline, hphi, hr'⟩

/-- C3: every region emitted by `detect_phi_boxes` originates from a
detected line of kind LINE for which some returned entity (namely the
first) scores strictly above the configured threshold `0.3`; in
particular no region ever stems from a WORD text unit. -/
theorem plan_regions_from_phi_lines
    (dp : String → List PhiEntity) (texts : List DetectedText) (img : Img)
    (r : String × List PixBox) (hr : r ∈ detect_phi_boxes dp texts img) :
    ∃ t, t ∈ texts ∧ t.type = TextKind.LINE ∧
      r = (t.detectedText,
        [toPixelBox t.geometry (img.shape1 : ℤ) (img.shape0 : ℤ)]) ∧
      ∃ e, e ∈ dp t.detectedText ∧ (3 : ℚ) / 10 < e.score := by
  have hr' : r ∈ texts.foldl
      (detectStep dp (3 / 10) (img.shape1 : ℤ) (img.shape0 : ℤ)) [] := by
    simpa [detect_phi_boxes] using hr
  rcases detect_phi_boxes_mem_aux dp (3 / 10) (img.shape1 : ℤ)
      (img.shape0 : ℤ) texts [] r hr' with hacc | ⟨t, ht, hline, hphi, hre⟩
  · cases hacc
  · refine ⟨t, ht, hline, hre, ?_⟩
    cases hdp : dp t.detectedText with
    | nil =>
      rw [hdp] at hphi
      cases hphi
    | cons e tl =>
      rw [hdp] at hphi
      simp only [isPhi, decide_eq_true_eq] at hphi
      exact ⟨e, List.mem_cons_self e tl, hphi⟩

/-- A classifier stub returning one entity with score 0.5, used as a
witness input. -/
def dpHalf : String → List PhiEntity := fun _ => [⟨1 / 2⟩]

/-- One detected LINE with the normalized box of the spec's end-to-end
scenario, used as a witness input. -/
def textsPatient : List DetectedText :=
  [⟨TextKind.LINE, "Patient", ⟨1 / 10, 1 / 20, 3 / 10, 1 / 25⟩⟩]

/-- A concrete 1000-column, 2000-row black image, used as a witness
input. -/
def imgTall : Img := ⟨2000, 1000, fun _ _ => (0, 0, 0)⟩

lemma toPixelBox_patient_eval :
    toPixelBox ⟨1 / 10, 1 / 20, 3 / 10, 1 / 25⟩ (((1000 : ℕ)) : ℤ)
        (((2000 : ℕ)) : ℤ) = ⟨100, 100, 400, 180⟩ := by
  have e1 : (1 : ℚ) / 10 * ((((1000 : ℕ)) : ℤ) : ℚ) = ((100 : ℤ) : ℚ) := by
    push_cast
    norm_num
  have e2 : (1 : ℚ) / 20 * ((((2000 : ℕ)) : ℤ) : ℚ) = ((100 : ℤ) : ℚ) := by
    push_cast
    norm_num
  have e3 : (3 : ℚ) / 10 * ((((1000 : ℕ)) : ℤ) : ℚ) = ((300 : ℤ) : ℚ) := by
    push_cast
    norm_num
  have e4 : (1 : ℚ) / 25 * ((((2000 : ℕ)) : ℤ) : ℚ) = ((80 : ℤ) : ℚ) := by
    push_cast
    norm_num
  simp only [toPixelBox, e1, e2, e3, e4, truncInt_coe]
  decide

lemma detect_phi_boxes_patient_eval :
    detect_phi_boxes dpHalf textsPatient imgTall =
      [("Patient", [⟨100, 100, 400, 180⟩])] := by
  have hphi : isPhi (dpHalf "Patient") ((3 : ℚ) / 10) = true := by
    simp only [dpHalf, isPhi, decide_eq_true_eq]
    norm_num
  simp only [detect_phi_boxes, imgTall, textsPatient, List.foldl_cons,
    List.foldl_nil, detectStep]
  rw [if_pos trivial, if_pos hphi, List.nil_append, toPixelBox_patient_eval]

/-- C3 witness: the single region emitted for the concrete LINE "Patient"
indeed originates from a LINE whose first entity scores above 0.3. -/
theorem plan_regions_from_phi_lines_witness :
    (("Patient", [(⟨100, 100, 400, 180⟩ : PixBox)]) ∈
        detect_phi_boxes dpHalf textsPatient imgTall) ∧
      ∃ t, t ∈ textsPatient ∧ t.type = TextKind.LINE ∧
        (("Patient", [(⟨100, 100, 400, 180⟩ : PixBox)]) :
            String × List PixBox) =
          (t.detectedText,
            [toPixelBox t.geometry (imgTall.shape1 : ℤ) (imgTall.shape0 : ℤ)]) ∧
        ∃ e, e ∈ dpHalf t.detectedText ∧ (3 : ℚ) / 10 < e.score :=
  ⟨detect_phi_boxes_patient_eval ▸ List.Mem.head _,
    plan_regions_from_phi_lines dpHalf textsPatient imgTall _
      (detect_phi_boxes_patient_eval ▸ List.Mem.head _)⟩

/-- C6: the orchestrator halts on a text-detection failure — if the fetch
succeeded but `detect_text` raises (for example a timeout), the invocation
returns that failure and performs no storage write; and any write the
invocation does perform carries the fully redacted image, produced after
`redact_phi_from_images` completed on the whole region list. -/
theorem handler_halts_on_ocr_failure :
    (∀ (env : PipelineEnv) (bucket : String) (key : List Char)
        (img : Img) (e : PErr),
      env.fetchImage = .ok img → env.detectText = .error e →
      lambda_handler env bucket key = (.error e, [])) ∧
    (∀ (env : PipelineEnv) (bucket : String) (key : List Char),
      (lambda_handler env bucket key).2 ≠ [] →
      ∃ (img : Img) (texts : List DetectedText) (imgR : Img),
        env.fetchImage = .ok img ∧ env.detectText = .ok texts ∧
        redact_phi_from_images (detect_phi_boxes env.detect_phi texts img)
            img = some imgR ∧
        (lambda_handler env bucket key).2 =
          [(bucket, strReplace imagesSeg redactedSeg key, imgR)]) := by
  constructor
  · intro env bucket key img e hf hd
    simp [lambda_handler, hf, hd]
  · intro env bucket key hne
    cases hf : env.fetchImage with
    | error e =>
      exact absurd (by simp [lambda_handler, hf]) hne
    | ok img =>
      cases hd : env.detectText with
      | error e =>
        exact absurd (by simp [lambda_handler, hf, hd]) hne
      | ok texts =>
        cases hred : redact_phi_from_images
            (detect_phi_boxes env.detect_phi texts img) img with
        | none =>
          exact absurd (by simp [lambda_handler, hf, hd, hred]) hne
        | some imgR =>
          exact ⟨img, texts, imgR, rfl, rfl, hred,
            by simp [lambda_handler, hf, hd, hred]⟩

/-- A pipeline environment whose OCR call times out, used as a witness
input. -/
def envOcrFail : PipelineEnv := ⟨.ok imgGray, .error .ocrTimeout, fun _ => []⟩

/-- C6 witness: with a fetched image and a timed-out OCR call the
invocation returns the failure and the write list is empty. -/
theorem handler_halts_on_ocr_failure_witness :
    lambda_handler envOcrFail "bucket" "Images/x.jpg".toList =
      (.error .ocrTimeout, []) :=
  handler_halts_on_ocr_failure.1 envOcrFail "bucket" "Images/x.jpg".toList
    imgGray .ocrTimeout rfl rfl

lemma strReplace_of_not_infix (pat rep : List Char) :
    ∀ s : List Char, ¬ pat <:+: s → strReplace pat rep s = s := by
  intro s
  induction s with
  | nil =>
    intro _
    rw [strReplace]
  | cons c cs ih =>
    intro hnin
    have hpre : ¬ (pat <+: (c :: cs) ∧ pat ≠ []) := by
      rintro ⟨⟨t, ht⟩, _⟩
      exact hnin ⟨[], t, by simpa using ht⟩
    have htail : ¬ pat <:+: cs := by
      rintro ⟨s, t, hst⟩
      exact hnin ⟨c :: s, t, by rw [← hst]; rfl⟩
    rw [strReplace, if_neg hpre, ih htail]

/-- C9: every storage write of the orchestrator goes to the source bucket
under the key obtained from the source key by replacing the occurrences of
`Images/` with `RedactedImages/`; and for every key containing no
occurrence of `Images/` the derived key equals the source key, so the
output overwrites the input object. -/
theorem store_key_rewrites_images_seg :
    (∀ (env : PipelineEnv) (bucket : String) (key : List Char)
        (w : String × List Char × Img),
      w ∈ (lambda_handler env bucket key).2 →
      w.2.1 = strReplace imagesSeg redactedSeg key ∧ w.1 = bucket) ∧
    (∀ key : List Char, ¬ imagesSeg <:+: key →
      strReplace imagesSeg redactedSeg key = key) := by
  constructor
  · intro env bucket key w hw
    cases hf : env.fetchImage with
    | error e =>
      rw [show (lambda_handler env bucket key).2 = [] by
            simp [lambda_handler, hf]] at hw
      cases hw
    | ok img =>
      cases hd : env.detectText with
      | error e =>
        rw [show (lambda_handler env bucket key).2 = [] by
              simp [lambda_handler, hf, hd]] at hw
        cases hw
      | ok texts =>
        cases hred : redact_phi_from_images
            (detect_phi_boxes env.detect_phi texts img) img with
        | none =>
          rw [show (lambda_handler env bucket key).2 = [] by
                simp [lambda_handler, hf, hd, hred]] at hw
          cases hw
        | some imgR =>
          rw [show (lambda_handler env bucket key).2 =
                [(bucket, strReplace imagesSeg redactedSeg key, imgR)] by
                simp [lambda_handler, hf, hd, hred]] at hw
          rcases List.mem_singleton.mp hw with rfl
          exact ⟨rfl, rfl⟩
  · exact strReplace_of_not_infix imagesSeg redactedSeg

/-- C9 witness: the key `incoming/scan.jpg` contains no occurrence of
`Images/`, and the derived destination key coincides with it. -/
theorem store_key_rewrites_images_seg_witness :
    (¬ imagesSeg <:+: "incoming/scan.jpg".toList) ∧
      strReplace imagesSeg redactedSeg "incoming/scan.jpg".toList =
        "incoming/scan.jpg".toList :=
  ⟨by decide, store_key_rewrites_images_seg.2 "incoming/scan.jpg".toList
    (by decide)⟩

end DeIdent
